import Mathlib

/-!
Verification of the core of a local-network HTTP file server
(`src/main.rs`): path sanitization, HTTP byte-range parsing, range-aware
file serving, the LRU-bounded selection cache, recursive directory
expansion, and generation of the batch-download (curl) configuration.

Paths are modelled as their lists of segments (Unix rules), files as the
list of their bytes, and the byte-range arithmetic over `Nat` with the
`u64` wrap-around written out explicitly where the Rust code can wrap.
-/

namespace WifiFS

/-- A filesystem path, as its list of segments (Unix). -/
abbrev FsPath := List String

/-- Whether a segment is classified `Component::Normal` by Rust's
`Path::components` on Unix: nonempty and neither `.` (current directory)
nor `..` (parent directory).  Empty segments come from repeated or leading
separators (`RootDir`), which `components` also does not classify as
`Normal`. -/
def isNormalSeg (s : String) : Bool :=
  s != "" && s != "." && s != ".."

/-- `sanitize_path` from `src/main.rs`: split the client-supplied string
into components and keep only the `Component::Normal` ones, collecting
them into a (relative) path. -/
def sanitize_path (p : String) : FsPath :=
  (p.splitOn "/").filter isNormalSeg

/-- `PathBuf::join` with a relative right operand: append the segments. -/
def rootJoin (root rel : FsPath) : FsPath :=
  root ++ rel

/-- The response of the `/files/{path}` handler, abstracted to which
filesystem path (if any) it serves. -/
inductive FileResponse where
  | notFound : FileResponse
  | dirListing (p : FsPath) : FileResponse
  | fileServe (p : FsPath) : FileResponse
deriving DecidableEq

/-- `file_handler` from `src/main.rs`: join the sanitized client path onto
the root, answer 404 when nothing exists there, render a listing for a
directory and stream the file otherwise.  The filesystem is abstracted to
the two predicates the handler consults. -/
def file_handler (root : FsPath) (fsExists isDir : FsPath → Bool) (path : String) : FileResponse :=
  let full := rootJoin root (sanitize_path path)
  if fsExists full then
    if isDir full then FileResponse.dirListing full else FileResponse.fileServe full
  else FileResponse.notFound

/-- One round of Rust `str::trim_start_matches`, with fuel: strip `pre`
from the front as long as it is a (nonempty) front of `s`.  Fuel
`s.length` (see `stripAll`) is enough: every successful strip removes at
least one character. -/
def stripAllAux : Nat → List Char → List Char → List Char
  | 0, _, s => s
  | Nat.succ n, pre, s =>
    if pre ≠ [] ∧ pre.isPrefixOf s then stripAllAux n pre (s.drop pre.length) else s

/-- Rust `str::trim_start_matches`: repeatedly remove the pattern from the
front. -/
def stripAll (pre s : List Char) : List Char :=
  stripAllAux s.length pre s

/-- Rust `str::split('-')`: the list of chunks between `-` occurrences
(always nonempty; `[""]` for the empty string). -/
def splitOnDash : List Char → List (List Char)
  | [] => [[]]
  | c :: cs =>
    match splitOnDash cs with
    | [] => [[]]
    | r :: rs => if c = '-' then [] :: r :: rs else (c :: r) :: rs

/-- Decimal digit parsing: `some` of the value when the string is nonempty
and all digits, `none` otherwise. -/
def parseDigits (cs : List Char) : Option Nat :=
  if cs ≠ [] ∧ cs.all (fun c => c.isDigit) then
    some (cs.foldl (fun acc c => acc * 10 + (c.toNat - 48)) 0)
  else none

/-- Rust `str::parse::<u64>`: an optional leading `+` sign, then a
nonempty run of decimal digits; fails on any other character and on
overflow past `2 ^ 64 - 1`. -/
def parseU64 (cs : List Char) : Option Nat :=
  let ds := if cs.head? = some '+' then cs.tail else cs
  match parseDigits ds with
  | some n => if n < 2 ^ 64 then some n else none
  | none => none

/-- The `u64` expression `size - 1` of `parse_range`, which wraps modulo
`2 ^ 64` when `size = 0` (release-profile semantics). -/
def u64PredWrap (size : Nat) : Nat :=
  (size + (2 ^ 64 - 1)) % 2 ^ 64

/-- `parse_range` from `src/main.rs`: require the `bytes=` lead, trim it,
split the remainder on `-`; the first chunk must parse as a `u64` start,
the second chunk (required to exist) gives the end, defaulting to
`size - 1` when it does not parse; accept only `start ≤ end < size`. -/
def parse_range (header : String) (size : Nat) : Option (Nat × Nat) :=
  let h := header.toList
  let pre := "bytes=".toList
  if pre.isPrefixOf h then
    match splitOnDash (stripAll pre h) with
    | p0 :: p1 :: _ =>
      match parseU64 p0 with
      | some start =>
        let e := (parseU64 p1).getD (u64PredWrap size)
        if start ≤ e ∧ e < size then some (start, e) else none
      | none => none
    | _ => none
  else none

/-- The observable part of a `serve_file` response: status, the
`Content-Range` header when present, the `Content-Length` value, and the
streamed body bytes. -/
structure ServeResponse where
  status : Nat
  contentRange : Option String
  contentLength : Nat
  body : List Nat
deriving DecidableEq

/-- `serve_file` from `src/main.rs`, for a file that opened successfully,
modelled by its byte content.  With a usable parsed range it seeks to
`start`, limits the reader to `end - start + 1` bytes (status 206, a
`Content-Range` header, `Content-Length` the range length); otherwise it
streams the whole file with status 200. -/
def serve_file (content : List Nat) (rangeHeader : Option String) : ServeResponse :=
  let size := content.length
  let full : ServeResponse :=
    { status := 200, contentRange := none, contentLength := size, body := content }
  match rangeHeader with
  | none => full
  | some h =>
    match parse_range h size with
    | some (s, e) =>
      { status := 206
        contentRange :=
          some ("bytes " ++ toString s ++ "-" ++ toString e ++ "/" ++ toString size)
        contentLength := e - s + 1
        body := (content.drop s).take (e - s + 1) }
    | none => full

/-- The per-character action of `escape_curl_config_value`: the six
special characters each become a two-character escape sequence, every
other character passes through. -/
def escapeChar (c : Char) : List Char :=
  if c = '\\' then ['\\', '\\']
  else if c = '"' then ['\\', '"']
  else if c = ',' then ['\\', ',']
  else if c = '\n' then ['\\', 'n']
  else if c = '\r' then ['\\', 'r']
  else if c = '\t' then ['\\', 't']
  else [c]

/-- `escape_curl_config_value` from `src/main.rs`: escape each character
in turn into the output string. -/
def escape_curl_config_value (input : String) : String :=
  String.mk ((input.toList.map escapeChar).flatten)

/-- Modelled from the spec: the unescaping rules of the target (curl
config) grammar, whose reader is the external download tool, not part of
this repository — a backslash followed by `n`, `r` or `t` reads back as
the control character, a backslash followed by anything else reads back
as that character. -/
def unescapeChars : List Char → List Char
  | [] => []
  | c :: rest =>
    if c = '\\' then
      match rest with
      | [] => [c]
      | d :: rest2 =>
        (if d = 'n' then '\n' else if d = 'r' then '\r' else if d = 't' then '\t' else d) ::
          unescapeChars rest2
    else c :: unescapeChars rest

/-- The capacity of the selection cache (`LruCache::new(100)`). -/
def lruCap : Nat := 100

/-- Modelled from the spec: the `lru` crate's `LruCache` (a dependency,
not code of this repository) as a recency-ordered association list, most
recently used first.  `put` moves the key to the front (replacing any old
entry for it) and, past capacity, drops the least recently used tail
entry.  Selection ids are modelled as naturals. -/
def lruPut (cap : Nat) (c : List (Nat × List String)) (k : Nat) (v : List String) :
    List (Nat × List String) :=
  ((k, v) :: c.filter (fun e => e.1 != k)).take cap

/-- Modelled from the spec: `LruCache::get` returns the stored list if
present and marks the entry most recently used (moves it to the front);
a missing key is `none`, never an error. -/
def lruGet (c : List (Nat × List String)) (k : Nat) :
    Option (List String) × List (Nat × List String) :=
  match c.find? (fun e => e.1 == k) with
  | some e => (some e.2, (e.1, e.2) :: c.filter (fun x => x.1 != k))
  | none => (none, c)

/-- The capacity scenario of the spec: 101 distinct fresh ids (modelled as
0..100, in insertion order) inserted into the empty cache with no
intervening lookups, each storing a file list (here the empty one). -/
def lruScenario : List (Nat × List String) :=
  (List.range 101).foldl (fun c i => lruPut lruCap c i []) []

/-- A filesystem tree: a file, or a directory with named children whose
`listable` flag models whether `read_dir` on it succeeds. -/
inductive FsNode where
  | file : FsNode
  | dir (listable : Bool) (entries : List (String × FsNode)) : FsNode

/-- Whether `read_dir` succeeds on this node. -/
def canList : FsNode → Bool
  | FsNode.dir true _ => true
  | _ => false

/-- Resolve a relative path inside the tree. -/
def lookupNode : FsNode → FsPath → Option FsNode
  | n, [] => some n
  | FsNode.file, _ :: _ => none
  | FsNode.dir _ entries, s :: restPath =>
    match entries.find? (fun e => e.1 == s) with
    | some e => lookupNode e.2 restPath
    | none => none
termination_by _ p => p.length

/-- The non-directory children of a listed directory, as paths relative
to the root (the code records `entry.path().strip_prefix(root)`). -/
def childFiles (p : FsPath) (entries : List (String × FsNode)) : List FsPath :=
  entries.filterMap (fun e =>
    match e.2 with
    | FsNode.file => some (p ++ [e.1])
    | FsNode.dir _ _ => none)

/-- The directory children of a listed directory, pushed onto the
worklist. -/
def childDirs (p : FsPath) (entries : List (String × FsNode)) : List (FsPath × FsNode) :=
  entries.filterMap (fun e =>
    match e.2 with
    | FsNode.dir _ _ => some (p ++ [e.1], e.2)
    | FsNode.file => none)

/-- The worklist loop of `expand_dirs` from `src/main.rs`: repeatedly take
one pending directory; a node on which `read_dir` fails (a file, a missing
path, an unlistable directory) is skipped; a listed directory contributes
its file children to the result and its directory children to the
worklist.  The Rust worklist is a LIFO `Vec`; since `expand_dirs` sorts
its result, the processing order is irrelevant and the model takes the
head of the list as the pending entry. -/
def expandLoop : List (FsPath × FsNode) → List FsPath
  | [] => []
  | (_, FsNode.file) :: rest => expandLoop rest
  | (_, FsNode.dir false _) :: rest => expandLoop rest
  | (p, FsNode.dir true entries) :: rest =>
    childFiles p entries ++ expandLoop (childDirs p entries ++ rest)
termination_by l => (l.map (fun e => sizeOf e.2)).sum
decreasing_by
  · simp only [List.map_cons, List.sum_cons, FsNode.file.sizeOf_spec]
    omega
  · simp only [List.map_cons, List.sum_cons, FsNode.dir.sizeOf_spec]
    omega
  · have h : ∀ es : List (String × FsNode),
        ((childDirs p es).map (fun e => sizeOf e.2)).sum ≤ sizeOf es := by
      intro es
      induction es with
      | nil => simp [childDirs]
      | cons e es ih =>
        obtain ⟨name, n⟩ := e
        cases n with
        | file =>
          simp only [childDirs, List.filterMap_cons] at ih ⊢
          simp only [List.cons.sizeOf_spec, Prod.mk.sizeOf_spec]
          omega
        | dir b cs =>
          simp only [childDirs, List.filterMap_cons] at ih ⊢
          simp only [List.map_cons, List.sum_cons, List.cons.sizeOf_spec,
            Prod.mk.sizeOf_spec]
          omega
    have he := h entries
    simp only [List.map_cons, List.sum_cons, List.map_append, List.sum_append,
      FsNode.dir.sizeOf_spec]
    omega

/-- `expand_dirs` from `src/main.rs`: seed the worklist with the sanitized
requested directories (resolved in the tree; unresolvable seeds make
`read_dir` fail, so they are skipped like any other unlistable entry),
run the loop, render each collected relative path as a string, and sort. -/
def expand_dirs (root : FsNode) (dirs : List String) : List String :=
  ((expandLoop (dirs.filterMap (fun d =>
      (lookupNode root (sanitize_path d)).map (fun n => (sanitize_path d, n))))).map
    (fun p => String.intercalate "/" p)).mergeSort

/-- The file list stored by `register_selection`: the explicit files and
the expanded directories, sorted (`Vec::sort`, byte-wise on UTF-8, which
agrees with the codepoint-wise `String` order) and deduplicated
(`Vec::dedup`, removing consecutive duplicates). -/
def registerStored (files expanded : List String) : List String :=
  ((files ++ expanded).mergeSort).destutter (fun a b => a ≠ b)

/-- `register_selection` from `src/main.rs`, its effect on the cache: put
the resolved file list under the fresh id. -/
def register_selection (cache : List (Nat × List String)) (newId : Nat)
    (root : FsNode) (files dirs : List String) : List (Nat × List String) :=
  lruPut lruCap cache newId (registerStored files (expand_dirs root dirs))

/-- The fixed header block of the generated curl config. -/
def configHeader (parallel : Nat) : String :=
  "globoff\ncontinue-at = -\nparallel\nparallel-max = " ++ toString parallel ++
    "\nparallel-immediate\nprogress-meter\n"

/-- One `url = ... / output = ...` block of the config, with the path
escaped in both values. -/
def configBlock (host path : String) : String :=
  "url = \"" ++ host ++ "/files/" ++ escape_curl_config_value path ++ "\"\noutput = \"" ++
    escape_curl_config_value path ++ "\"\n\n"

/-- The per-file blocks, appended in list order (the code's `push_str`
loop). -/
def configBlocks (host : String) : List String → String
  | [] => ""
  | p :: ps => configBlock host p ++ configBlocks host ps

/-- The whole config document built by `config_handler`. -/
def configDoc (host : String) (parallel : Nat) (fileList : List String) : String :=
  configHeader parallel ++ configBlocks host fileList

/-- `config_handler` from `src/main.rs`: look the id up in the cache
(refreshing its recency); a hit renders the config document, a miss is
not-found (`none`). -/
def config_handler (host : String) (parallel : Nat) (cache : List (Nat × List String))
    (id : Nat) : Option String :=
  ((lruGet cache id).1).map (fun fileList => configDoc host parallel fileList)

/-! ### Theorems -/

/-- Soundness of `parse_range`: an accepted pair satisfies the bounds the
final guard checks. -/
theorem parse_range_sound {h : String} {size s e : Nat}
    (hp : parse_range h size = some (s, e)) : s ≤ e ∧ e < size := by
  simp only [parse_range] at hp
  split at hp
  · split at hp
    · split at hp
      · split at hp
        · next hcond =>
          simp only [Option.some.injEq, Prod.mk.injEq] at hp
          obtain ⟨rfl, rfl⟩ := hp
          exact hcond
        · exact absurd hp (by simp)
      · exact absurd hp (by simp)
    · exact absurd hp (by simp)
  · exact absurd hp (by simp)

/-- C1: `sanitize_path` keeps only plain-name segments (parent-directory,
current-directory, root and empty components are all dropped), so the
joined path always extends the root — it can never name an ancestor of the
root — and `file_handler` either answers not-found or serves a path that
extends the root by plain-name segments only. -/
theorem sanitize_path_never_escapes_root (root : FsPath) (p : String) :
    (∀ s ∈ sanitize_path p, isNormalSeg s = true) ∧
    root <+: rootJoin root (sanitize_path p) ∧
    (∀ fsExists isDir : FsPath → Bool,
      file_handler root fsExists isDir p = FileResponse.notFound ∨
      ∃ q : FsPath, root <+: q ∧ (∀ s ∈ q.drop root.length, isNormalSeg s = true) ∧
        (file_handler root fsExists isDir p = FileResponse.dirListing q ∨
         file_handler root fsExists isDir p = FileResponse.fileServe q)) := by
  have hseg : ∀ s ∈ sanitize_path p, isNormalSeg s = true := by
    intro s hs
    exact List.of_mem_filter hs
  refine ⟨hseg, ⟨sanitize_path p, rfl⟩, ?_⟩
  intro fsExists isDir
  unfold file_handler
  by_cases hex : fsExists (rootJoin root (sanitize_path p))
  · right
    refine ⟨rootJoin root (sanitize_path p), ⟨sanitize_path p, rfl⟩, ?_, ?_⟩
    · intro s hs
      rw [rootJoin, List.drop_left] at hs
      exact hseg s hs
    · by_cases hd : isDir (rootJoin root (sanitize_path p))
      · left; simp [hex, hd]
      · right; simp [hex, hd]
  · left; simp [hex]

/-- C3: `parse_range` accepts a pair only when `start ≤ end < size`; any
header it does not accept yields `none` (not an error), and `serve_file`
then answers the full file: status 200, `Content-Length` the file size and
the whole content as body. -/
theorem parse_range_validity_and_fallback :
    (∀ (h : String) (size s e : Nat),
      parse_range h size = some (s, e) → s ≤ e ∧ e < size) ∧
    (∀ (content : List Nat) (h : String), parse_range h content.length = none →
      serve_file content (some h) =
        { status := 200, contentRange := none, contentLength := content.length,
          body := content }) := by
  constructor
  · intro h size s e hp
    exact parse_range_sound hp
  · intro content h hp
    simp only [serve_file, hp]

/-- C2: whenever `parse_range` accepts `(s, e)` against the file's size,
`serve_file` responds with status 206, a `Content-Range` header of the
form `bytes s-e/N`, `Content-Length` `e - s + 1`, and a body of exactly
`e - s + 1` bytes read starting at offset `s`. -/
theorem serve_file_range_response (content : List Nat) (h : String) (s e : Nat)
    (hp : parse_range h content.length = some (s, e)) :
    serve_file content (some h) =
      { status := 206
        contentRange :=
          some ("bytes " ++ toString s ++ "-" ++ toString e ++ "/" ++
            toString content.length)
        contentLength := e - s + 1
        body := (content.drop s).take (e - s + 1) } ∧
    (serve_file content (some h)).body.length = e - s + 1 := by
  have hse := parse_range_sound hp
  have heq : serve_file content (some h) =
      { status := 206
        contentRange :=
          some ("bytes " ++ toString s ++ "-" ++ toString e ++ "/" ++
            toString content.length)
        contentLength := e - s + 1
        body := (content.drop s).take (e - s + 1) } := by
    simp only [serve_file, hp]
  refine ⟨heq, ?_⟩
  rw [heq]
  simp only [List.length_take, List.length_drop]
  omega

/-- C2 witness: a 101-byte file and `Range: bytes=0-99` give a 206
response whose body is exactly the first 100 bytes. -/
theorem serve_file_range_response_witness :
    parse_range "bytes=0-99" (List.range 101).length = some (0, 99) ∧
    (serve_file (List.range 101) (some "bytes=0-99")).body.length = 99 - 0 + 1 :=
  ⟨rfl, (serve_file_range_response (List.range 101) "bytes=0-99" 0 99 rfl).2⟩

/-- C10: for a file of size 0, `parse_range` never yields a usable range —
the default end `size - 1` wraps to `2 ^ 64 - 1` and an explicit end can
never satisfy `end < 0` — so `serve_file` answers an empty file with a
full-file 200 response of length 0, whatever the `Range` header. -/
theorem empty_file_always_full_response :
    (∀ h : String, parse_range h 0 = none) ∧
    (∀ rangeHeader : Option String, serve_file [] rangeHeader =
      { status := 200, contentRange := none, contentLength := 0, body := [] }) := by
  have h0 : ∀ h : String, parse_range h 0 = none := by
    intro h
    simp only [parse_range]
    split
    · split
      · split
        · split
          · next hcond => exact absurd hcond.2 (by omega)
          · rfl
        · rfl
      · rfl
    · rfl
  refine ⟨h0, ?_⟩
  intro rangeHeader
  cases rangeHeader with
  | none => rfl
  | some h =>
    simp only [serve_file, List.length_nil, h0 h]

/-- C4 counterexample: a header with a start but no dash at all, such as
`bytes=0` against a file of size 10, is rejected outright (the split
yields a single chunk, so asking for the second chunk fails), instead of
parsing to `(0, 9)` as the claim states. -/
theorem parse_range_no_dash_rejected :
    parse_range "bytes=0" 10 = none ∧ parse_range "bytes=0" 10 ≠ some (0, 9) := by
  refine ⟨rfl, ?_⟩
  intro hc
  exact Option.noConfusion ((rfl : parse_range "bytes=0" 10 = none) ▸ hc)

/-- If `pre` is not a front of `s`, stripping leaves `s` unchanged. -/
theorem stripAllAux_of_not_prefixed (n : Nat) (pre s : List Char)
    (h : ¬ pre.isPrefixOf s = true) : stripAllAux n pre s = s := by
  cases n with
  | zero => rfl
  | succ n =>
    simp only [stripAllAux]
    rw [if_neg]
    intro hc
    exact h hc.2

/-- Stripping the pattern from `pre ++ rest` leaves exactly `rest` when
`rest` does not itself continue with the pattern. -/
theorem stripAll_append (pre rest : List Char) (hpre : pre ≠ [])
    (hnp : ¬ pre.isPrefixOf rest = true) :
    stripAll pre (pre ++ rest) = rest := by
  have hlen : 0 < pre.length := List.length_pos.mpr hpre
  have hn : (pre ++ rest).length = ((pre ++ rest).length - 1) + 1 := by
    rw [List.length_append]
    omega
  unfold stripAll
  rw [hn]
  simp only [stripAllAux]
  rw [if_pos ⟨hpre, List.isPrefixOf_iff_prefix.mpr (List.prefix_append pre rest)⟩,
    List.drop_left]
  exact stripAllAux_of_not_prefixed _ pre rest hnp

/-- `splitOnDash` never returns the empty list of chunks. -/
theorem splitOnDash_ne_nil : ∀ l : List Char, splitOnDash l ≠ []
  | [] => by simp [splitOnDash]
  | c :: cs => by
    simp only [splitOnDash]
    split
    · simp
    · split <;> simp

/-- A chunk without a dash splits into itself alone. -/
theorem splitOnDash_no_dash (l : List Char) (h : '-' ∉ l) : splitOnDash l = [l] := by
  induction l with
  | nil => rfl
  | cons c cs ih =>
    have hc : c ≠ '-' := fun hc => h (hc ▸ List.mem_cons_self c cs)
    have hcs : '-' ∉ cs := fun hm => h (List.mem_cons_of_mem c hm)
    simp only [splitOnDash, ih hcs]
    rw [if_neg hc]

/-- Splitting `p0 ++ '-' :: p1` with no dash in `p0` yields `p0` and then
the chunks of `p1`. -/
theorem splitOnDash_append (p0 p1 : List Char) (h0 : '-' ∉ p0) :
    splitOnDash (p0 ++ '-' :: p1) = p0 :: splitOnDash p1 := by
  induction p0 with
  | nil =>
    simp only [List.nil_append, splitOnDash]
    rcases hsp : splitOnDash p1 with _ | ⟨r, rs⟩
    · exact absurd hsp (splitOnDash_ne_nil p1)
    · simp
  | cons c cs ih =>
    have hc : c ≠ '-' := fun hc => h0 (hc ▸ List.mem_cons_self c cs)
    have hcs : '-' ∉ cs := fun hm => h0 (List.mem_cons_of_mem c hm)
    simp only [List.cons_append, splitOnDash, List.append_eq, ih hcs]
    rw [if_neg hc]

/-- A successfully parsed `u64` chunk starts with a sign or a digit, so it
can never start with the `bytes=` lead. -/
theorem parseU64_head (cs : List Char) (S : Nat) (h : parseU64 cs = some S) :
    ∃ c rest, cs = c :: rest ∧ (c = '+' ∨ c.isDigit = true) := by
  cases cs with
  | nil => simp [parseU64, parseDigits] at h
  | cons c rest =>
    refine ⟨c, rest, rfl, ?_⟩
    by_cases hc : c = '+'
    · exact Or.inl hc
    · right
      simp only [parseU64, List.head?_cons, List.tail_cons] at h
      rw [if_neg (by simp [hc])] at h
      rcases hpd : parseDigits (c :: rest) with _ | n
      · rw [hpd] at h
        simp at h
      · unfold parseDigits at hpd
        split at hpd
        · next hcond =>
          exact (List.all_eq_true.mp hcond.2) c (List.mem_cons_self c rest)
        · simp at hpd

/-- C4 (amended): the end defaults to `size - 1` only when the header does
contain a dash: for any header `bytes=` ++ start ++ `-` ++ tail whose
start parses as a `u64` at most `N - 1` and whose tail fails to parse,
the result is the usable range `(start, N - 1)`; in particular
`bytes=S-` (dash present, end absent).  A header with no dash at all is
rejected (see the counterexample). -/
theorem parse_range_end_defaults (N S : Nat) (p0 p1 : List Char)
    (h0 : parseU64 p0 = some S) (h1 : parseU64 p1 = none)
    (hd0 : '-' ∉ p0) (hd1 : '-' ∉ p1)
    (hN : 1 ≤ N) (hN64 : N ≤ 2 ^ 64) (hS : S ≤ N - 1) :
    parse_range (String.mk ("bytes=".toList ++ p0 ++ '-' :: p1)) N = some (S, N - 1) := by
  have hpre : ("bytes=".toList).isPrefixOf
      ("bytes=".toList ++ (p0 ++ '-' :: p1)) = true :=
    List.isPrefixOf_iff_prefix.mpr (List.prefix_append _ _)
  have hnp : ¬ ("bytes=".toList).isPrefixOf (p0 ++ '-' :: p1) = true := by
    obtain ⟨c, rest, rfl, hcd⟩ := parseU64_head p0 S h0
    intro hp
    obtain ⟨t, ht⟩ := List.isPrefixOf_iff_prefix.mp hp
    rw [show ("bytes=".toList : List Char) = 'b' :: "ytes=".toList from rfl,
      List.cons_append, List.cons_append] at ht
    have hb : 'b' = c := ((List.cons.injEq _ _ _ _).mp ht).1
    rcases hcd with hcd | hcd <;> rw [← hb] at hcd <;> exact absurd hcd (by decide)
  have hstrip : stripAll ("bytes=".toList) ("bytes=".toList ++ (p0 ++ '-' :: p1)) =
      p0 ++ '-' :: p1 :=
    stripAll_append _ _ (by decide) hnp
  have htl : (String.mk ("bytes=".toList ++ p0 ++ '-' :: p1)).toList =
      "bytes=".toList ++ (p0 ++ '-' :: p1) := by
    rw [List.append_assoc]
    rfl
  have hwrap : u64PredWrap N = N - 1 := by
    unfold u64PredWrap
    have h2 : (1:Nat) ≤ 2 ^ 64 := Nat.one_le_two_pow
    have hsplit : N + (2 ^ 64 - 1) = (N - 1) + 1 * 2 ^ 64 := by omega
    rw [hsplit, Nat.add_mul_mod_self_right]
    omega
  simp only [parse_range, htl, hpre, if_true, hstrip, splitOnDash_append p0 p1 hd0,
    splitOnDash_no_dash p1 hd1, h0, h1, Option.getD_none, hwrap]
  rw [if_pos ⟨by omega, by omega⟩]

/-- C4 witness: `bytes=0-` (end absent) against a size-10 file parses to
`(0, 9)`. -/
theorem parse_range_end_defaults_witness :
    parse_range (String.mk ("bytes=".toList ++ ['0'] ++ '-' :: [])) 10 = some (0, 9) :=
  parse_range_end_defaults 10 0 ['0'] [] rfl rfl (by decide) (by decide)
    (by decide) (by norm_num) (by decide)

/-- Unescaping consumes one escaped character at a time: reading back the
escape sequence of `c` in front of any tail restores `c` and leaves the
tail to be read. -/
theorem unescape_escapeChar (c : Char) (rest : List Char) :
    unescapeChars (escapeChar c ++ rest) = c :: unescapeChars rest := by
  by_cases h1 : c = '\\'
  · subst h1; simp [escapeChar, unescapeChars]
  by_cases h2 : c = '"'
  · subst h2; simp [escapeChar, unescapeChars]
  by_cases h3 : c = ','
  · subst h3; simp [escapeChar, unescapeChars]
  by_cases h4 : c = '\n'
  · subst h4; simp [escapeChar, unescapeChars]
  by_cases h5 : c = '\r'
  · subst h5; simp [escapeChar, unescapeChars]
  by_cases h6 : c = '\t'
  · subst h6; simp [escapeChar, unescapeChars]
  · rw [show escapeChar c = [c] from by simp [escapeChar, h1, h2, h3, h4, h5, h6],
      List.singleton_append, unescapeChars.eq_def]
    simp only [h1, if_false]

/-- Unescaping undoes the whole character-by-character escaping. -/
theorem unescape_flatten (l : List Char) :
    unescapeChars ((l.map escapeChar).flatten) = l := by
  induction l with
  | nil => rfl
  | cons c cs ih =>
    rw [List.map_cons, List.flatten_cons, unescape_escapeChar, ih]

/-- C6: `escape_curl_config_value` maps each of the six special characters
(backslash, double quote, comma, newline, carriage return, tab) to a
two-character sequence starting with a backslash, passes every other
character through unchanged, consumes each input character exactly once
(the output is the concatenation of the per-character images), and
unescaping its output by the target grammar reconstructs the input
exactly, so the function is injective. -/
theorem escape_curl_config_value_roundtrip :
    (∀ c : Char, c ∈ ['\\', '"', ',', '\n', '\r', '\t'] →
      (escapeChar c).length = 2 ∧ (escapeChar c).head? = some '\\') ∧
    (∀ c : Char, c ∉ ['\\', '"', ',', '\n', '\r', '\t'] → escapeChar c = [c]) ∧
    (∀ s : String,
      (escape_curl_config_value s).toList = (s.toList.map escapeChar).flatten) ∧
    (∀ s : String, unescapeChars (escape_curl_config_value s).toList = s.toList) ∧
    Function.Injective escape_curl_config_value := by
  have hflat : ∀ s : String,
      (escape_curl_config_value s).toList = (s.toList.map escapeChar).flatten := by
    intro s
    rfl
  have hrt : ∀ s : String, unescapeChars (escape_curl_config_value s).toList = s.toList := by
    intro s
    rw [hflat]
    exact unescape_flatten s.toList
  refine ⟨?_, ?_, hflat, hrt, ?_⟩
  · intro c hc
    simp only [List.mem_cons, List.not_mem_nil, or_false] at hc
    rcases hc with rfl | rfl | rfl | rfl | rfl | rfl <;> simp [escapeChar]
  · intro c hc
    simp only [List.mem_cons, List.not_mem_nil, or_false, not_or] at hc
    obtain ⟨h1, h2, h3, h4, h5, h6⟩ := hc
    simp [escapeChar, h1, h2, h3, h4, h5, h6]
  · intro a b hab
    have h1 : a.toList = b.toList := by
      rw [← hrt a, ← hrt b, hab]
    cases a
    cases b
    exact congrArg String.mk (by simpa [String.toList] using h1)

set_option maxRecDepth 100000 in
/-- C5: the selection cache never holds more than 100 entries; a fresh id
put into a full cache keeps the new entry plus all old ones except the
least recently used (the last in recency order), which is evicted; and
after 101 distinct inserts with no intervening lookups the first id is
gone — its config request answers not-found — while the other 100 ids are
still retrievable. -/
theorem lru_cache_bounded_and_evicts_lru :
    (∀ (c : List (Nat × List String)) (k : Nat) (v : List String),
      (lruPut lruCap c k v).length ≤ lruCap) ∧
    (∀ (c : List (Nat × List String)) (k : Nat) (v : List String),
      c.length = lruCap → k ∉ c.map Prod.fst →
      lruPut lruCap c k v = (k, v) :: c.dropLast) ∧
    ((lruGet lruScenario 0).1 = none ∧
      ∀ host parallel, config_handler host parallel lruScenario 0 = none) ∧
    (∀ j ∈ List.range 100, (lruGet lruScenario (j + 1)).1 = some [] ∧
      ∀ host parallel, (config_handler host parallel lruScenario (j + 1)).isSome = true) := by
  have hnone : (lruGet lruScenario 0).1 = none := by decide
  have hsome : ∀ j ∈ List.range 100, (lruGet lruScenario (j + 1)).1 = some [] := by decide
  refine ⟨?_, ?_, ⟨hnone, ?_⟩, ?_⟩
  · intro c k v
    simp only [lruPut, List.length_take]
    exact inf_le_left
  · intro c k v hlen hfresh
    have hfil : c.filter (fun e => e.1 != k) = c := by
      apply List.filter_eq_self.mpr
      intro e he
      simp only [bne_iff_ne, ne_eq]
      intro hek
      exact hfresh (hek ▸ List.mem_map_of_mem Prod.fst he)
    have hcap : lruCap = 99 + 1 := rfl
    rw [lruPut, hfil, hcap, List.take_succ_cons]
    have hdl : c.dropLast = c.take 99 := by
      rw [List.dropLast_eq_take, hlen]
      rfl
    rw [hdl]
  · intro host parallel
    simp only [config_handler, hnone, Option.map_none']
  · intro j hj
    refine ⟨hsome j hj, ?_⟩
    intro host parallel
    simp only [config_handler, hsome j hj, Option.map_some', Option.isSome_some]

/-- Two adjacency properties of a list hold together adjacently. -/
theorem chain'_and_chain' {α : Type} {R S : α → α → Prop} :
    ∀ {l : List α}, l.Chain' R → l.Chain' S → l.Chain' (fun a b => R a b ∧ S a b)
  | [], _, _ => trivial
  | [_], _, _ => by simp
  | a :: b :: t, hR, hS => by
    rw [List.chain'_cons] at hR hS ⊢
    exact ⟨⟨hR.1, hS.1⟩, chain'_and_chain' hR.2 hS.2⟩

/-- C7: the file list stored for a selection — the explicit files merged
with the directory-expansion results, then sorted and deduplicated — is
strictly sorted (ascending, hence duplicate-free), and that exact list is
what a lookup of the fresh id returns after `register_selection` puts it
in the cache. -/
theorem register_selection_stores_sorted_dedup :
    (∀ files expanded : List String,
      (registerStored files expanded).Sorted (fun a b => a < b) ∧
      (registerStored files expanded).Nodup ∧
      (registerStored files expanded).Sorted (fun a b => a ≤ b)) ∧
    (∀ (cache : List (Nat × List String)) (newId : Nat) (root : FsNode)
      (files dirs : List String),
      (lruGet (register_selection cache newId root files dirs) newId).1 =
        some (registerStored files (expand_dirs root dirs))) := by
  constructor
  · intro files expanded
    set m := (files ++ expanded).mergeSort with hm
    have hms : m.Sorted (fun a b => a ≤ b) := List.sorted_mergeSort' (files ++ expanded)
    have hsub : (registerStored files expanded).Sublist m :=
      List.destutter_sublist _ m
    have hle : (registerStored files expanded).Pairwise (fun a b => a ≤ b) :=
      List.Pairwise.sublist hsub hms
    have hne : (registerStored files expanded).Chain' (fun a b => a ≠ b) :=
      List.destutter_is_chain' _ m
    have hlt : (registerStored files expanded).Chain' (fun a b => a < b) := by
      refine List.Chain'.imp ?_ (chain'_and_chain' hle.chain' hne)
      intro a b hab
      exact lt_of_le_of_ne hab.1 hab.2
    have hplt : (registerStored files expanded).Pairwise (fun a b => a < b) :=
      List.chain'_iff_pairwise.mp hlt
    refine ⟨hplt, ?_, hle⟩
    exact List.Pairwise.imp (fun hab => ne_of_lt hab) hplt
  · intro cache newId root files dirs
    have hcap : lruCap = 99 + 1 := rfl
    rw [register_selection, lruPut, hcap, List.take_succ_cons, lruGet]
    rw [List.find?_cons_of_pos _ (by simp)]

/-- C8: a pending directory whose listing fails (a missing path, a file,
or an unlistable directory) is silently skipped and the expansion
continues with the remaining worklist unchanged, so a single unlistable
entry never aborts the expansion: the result is exactly that of the rest
of the worklist. -/
theorem expand_dirs_skips_unlistable :
    (∀ (p : FsPath) (n : FsNode) (rest : List (FsPath × FsNode)),
      canList n = false → expandLoop ((p, n) :: rest) = expandLoop rest) ∧
    (∀ (root : FsNode) (d : String) (dirs : List String),
      (∀ n, lookupNode root (sanitize_path d) = some n → canList n = false) →
      expand_dirs root (d :: dirs) = expand_dirs root dirs) := by
  have hskip : ∀ (p : FsPath) (n : FsNode) (rest : List (FsPath × FsNode)),
      canList n = false → expandLoop ((p, n) :: rest) = expandLoop rest := by
    intro p n rest hn
    cases n with
    | file => simp [expandLoop]
    | dir b entries =>
      cases b with
      | false => simp [expandLoop]
      | true => exact absurd hn (by simp [canList])
  refine ⟨hskip, ?_⟩
  intro root d dirs hbad
  unfold expand_dirs
  rcases hl : lookupNode root (sanitize_path d) with _ | n
  · simp only [List.filterMap_cons, hl, Option.map_none']
  · simp only [List.filterMap_cons, hl, Option.map_some']
    rw [hskip _ n _ (hbad n hl)]

/-- A block for a listed file sits inside the blocks of any list that
contains the file. -/
theorem configBlock_infix_configBlocks (host f : String) :
    ∀ l : List String, f ∈ l →
      (configBlock host f).toList <:+: (configBlocks host l).toList
  | [], hf => absurd hf (List.not_mem_nil f)
  | p :: ps, hf => by
    rw [configBlocks]
    simp only [String.toList, String.data_append]
    rcases List.mem_cons.mp hf with rfl | hf'
    · exact ⟨[], (configBlocks host ps).data, by simp [String.toList]⟩
    · obtain ⟨u, v, huv⟩ := configBlock_infix_configBlocks host f ps hf'
      exact ⟨(configBlock host p).data ++ u, v, by
        simp only [String.toList] at huv
        simp [← huv]⟩

/-- Destuttering by distinctness never loses a value: every element of the
input still occurs in the output (a dropped element equals the kept
element before it). -/
theorem mem_destutter'_ne {α : Type} [DecidableEq α] :
    ∀ (l : List α) (a x : α), x ∈ l →
      x ∈ l.destutter' (fun u v => u ≠ v) a ∨ x = a
  | [], _, _, hx => absurd hx (List.not_mem_nil _)
  | b :: t, a, x, hx => by
    by_cases hab : a ≠ b
    · rw [List.destutter'_cons_pos t hab]
      rcases List.mem_cons.mp hx with rfl | hx'
      · exact Or.inl (List.mem_cons_of_mem a (List.mem_destutter' t _ x))
      · rcases mem_destutter'_ne t b x hx' with h | rfl
        · exact Or.inl (List.mem_cons_of_mem a h)
        · exact Or.inl (List.mem_cons_of_mem a (List.mem_destutter' t _ x))
    · rw [List.destutter'_cons_neg t hab]
      rcases List.mem_cons.mp hx with rfl | hx'
      · rw [not_not] at hab
        exact Or.inr hab.symm
      · exact mem_destutter'_ne t a x hx'

/-- Membership is preserved by `destutter (≠)`. -/
theorem mem_destutter_ne {α : Type} [DecidableEq α] (l : List α) (x : α) (hx : x ∈ l) :
    x ∈ l.destutter (fun u v => u ≠ v) := by
  cases l with
  | nil => exact absurd hx (List.not_mem_nil x)
  | cons b t =>
    rw [List.destutter_cons']
    rcases List.mem_cons.mp hx with rfl | hx'
    · exact List.mem_destutter' t _ x
    · rcases mem_destutter'_ne t b x hx' with h | rfl
      · exact h
      · exact List.mem_destutter' t _ x

/-- C9: every string in the request body's `files` array is stored under
the new id verbatim — no sanitization, no existence check — and its
escaped form is emitted into the config document as a complete
`url = ... / output = ...` block, for any host and parallelism. -/
theorem register_selection_files_verbatim (files expanded : List String) (f : String)
    (hf : f ∈ files) :
    f ∈ registerStored files expanded ∧
    ∀ host parallel, (configBlock host f).toList <:+:
      (configDoc host parallel (registerStored files expanded)).toList := by
  have hmem : f ∈ registerStored files expanded := by
    apply mem_destutter_ne
    exact ((files ++ expanded).mergeSort_perm _).mem_iff.mpr
      (List.mem_append_left expanded hf)
  refine ⟨hmem, ?_⟩
  intro host parallel
  obtain ⟨u, v, huv⟩ := configBlock_infix_configBlocks host f _ hmem
  rw [configDoc]
  simp only [String.toList, String.data_append]
  exact ⟨(configHeader parallel).data ++ u, v, by
    simp only [String.toList] at huv
    simp [← huv]⟩

/-- C9 witness: the parent-directory path `../secret`, listed explicitly
in `files`, is stored verbatim and rendered (escaped) into the config. -/
theorem register_selection_files_verbatim_witness :
    "../secret" ∈ registerStored ["../secret"] ["a"] ∧
    ∀ host parallel, (configBlock host "../secret").toList <:+:
      (configDoc host parallel (registerStored ["../secret"] ["a"])).toList :=
  register_selection_files_verbatim ["../secret"] ["a"] "../secret"
    (List.mem_cons_self "../secret" [])

end WifiFS
